import Mathlib

/-!
Verification of the board-model logic of a 4×4 sliding-tile ("15") puzzle.

The program keeps a `4 × 4` grid of tiles (`[[Tile; 4]; 4]` in the source,
embedded here as `Mathlib.Vector (Mathlib.Vector Tile 4) 4`, which captures
the array type's shape guarantee) together with an unsigned move counter.
Indexing the grid with arbitrary `usize` coordinates can go out of bounds
(a panic in the source); the one operation that performs such indexing,
`move_tile`, is embedded as an `Option`-valued function, `none` standing for
the panic.  The counter values arising in the program stay far below
`u32::MAX`, so `moves` is embedded as `Nat`.

The random number generator used by `shuffle` is modelled as an injected
choice sequence `choices : Nat → Nat`; iteration `k` of the shuffle loop draws
`choices k % n` as the result of `gen_range(0..n)` (and panics when `n = 0`,
exactly as `gen_range` does on an empty range).
-/

/-- One cell's content: `none` represents the empty tile
(`struct Tile { value: Option<u8> }`). -/
structure Tile where
  value : Option Nat
deriving DecidableEq, Repr

/-- `Tile::empty()`. -/
def Tile.empty : Tile := ⟨none⟩

/-- `Tile::new(value)`. -/
def Tile.new (value : Nat) : Tile := ⟨some value⟩

/-- `Tile::is_empty()`. -/
def Tile.is_empty (t : Tile) : Bool := t.value.isNone

/-- The grid type `[[Tile; GRID_SIZE]; GRID_SIZE]` with `GRID_SIZE = 4`. -/
abbrev Grid : Type := Mathlib.Vector (Mathlib.Vector Tile 4) 4

/-- The puzzle state: a 4×4 grid of tiles and a move counter
(`struct Puzzle { tiles: [[Tile; GRID_SIZE]; GRID_SIZE], moves: u32 }`). -/
structure Puzzle where
  tiles : Grid
  moves : Nat
deriving DecidableEq

/-- The tile at grid position `(i, j)` (the in-bounds indexing
`self.tiles[i][j]`). -/
def tileAt (g : Grid) (i j : Fin 4) : Tile :=
  (Mathlib.Vector.get g i).get j

/-- The grid assignment `tiles[i][j] = x` (in-bounds). -/
def setTileAt (g : Grid) (i j : Fin 4) (x : Tile) : Grid :=
  Mathlib.Vector.set g i ((Mathlib.Vector.get g i).set j x)

/-- `Puzzle::default()`: row-major ascending numbers, empty tile in the last
cell.  The source fills the grid with a running counter `value` starting at 1
and incremented once per non-final cell, so cell `(i, j)` (the final cell
excepted) receives `4 * i + j + 1`. -/
def defaultPuzzle : Puzzle :=
  { tiles := Mathlib.Vector.ofFn fun i => Mathlib.Vector.ofFn fun j =>
      if i.val = 3 ∧ j.val = 3 then Tile.empty
      else Tile.new (4 * i.val + j.val + 1)
    moves := 0 }

/-- `Puzzle::find_empty()`: scan the grid row-major, return the coordinates of
the first empty tile (as `usize`s, hence `Nat × Nat`). -/
def Puzzle.find_empty (p : Puzzle) : Option (Nat × Nat) :=
  (List.finRange 4).findSome? fun i =>
    (List.finRange 4).findSome? fun j =>
      if (tileAt p.tiles i j).is_empty then some (i.val, j.val) else none

/-- `Puzzle::is_adjacent_to_empty(row, col)`: true iff the candidate shares a
row with the empty cell and differs by exactly one column, or shares a column
and differs by exactly one row (the source casts to `isize` and compares
`abs` to 1). -/
def Puzzle.is_adjacent_to_empty (p : Puzzle) (row col : Nat) : Bool :=
  match p.find_empty with
  | some (er, ec) =>
      (row == er && ((col : Int) - (ec : Int)).natAbs == 1) ||
      (col == ec && ((row : Int) - (er : Int)).natAbs == 1)
  | none => false

/-- `Puzzle::move_tile(row, col)`: if `(row, col)` is adjacent to the empty
cell, swap it with the empty cell (`let temp = tiles[row][col];
tiles[row][col] = tiles[er][ec]; tiles[er][ec] = temp`) and increment the
counter, returning `true`; otherwise return `false` and change nothing.  The
source indexes `self.tiles[row][col]` with unchecked `usize` coordinates,
which panics when out of bounds: that panic is the `none` result here (the
bound checks on `er`/`ec` always succeed, since `find_empty` only returns
in-range coordinates). -/
def Puzzle.move_tile (p : Puzzle) (row col : Nat) : Option (Puzzle × Bool) :=
  if p.is_adjacent_to_empty row col then
    match p.find_empty with
    | some (er, ec) =>
        if h : row < 4 ∧ col < 4 ∧ er < 4 ∧ ec < 4 then
          let ri : Fin 4 := ⟨row, h.1⟩
          let ci : Fin 4 := ⟨col, h.2.1⟩
          let ei : Fin 4 := ⟨er, h.2.2.1⟩
          let ej : Fin 4 := ⟨ec, h.2.2.2⟩
          let temp := tileAt p.tiles ri ci
          let tiles1 := setTileAt p.tiles ri ci (tileAt p.tiles ei ej)
          let tiles2 := setTileAt tiles1 ei ej temp
          some ({ tiles := tiles2, moves := p.moves + 1 }, true)
        else none
    | none => some (p, false)
  else some (p, false)

/-- The candidate list built inside `Puzzle::shuffle`'s loop body for an empty
cell at `(er, ec)`: push up, down, left, right neighbours, each guarded by a
bound check (`GRID_SIZE - 1 = 3`). -/
def valid_moves_of (er ec : Nat) : List (Nat × Nat) :=
  (if er > 0 then [(er - 1, ec)] else []) ++
  (if er < 3 then [(er + 1, ec)] else []) ++
  (if ec > 0 then [(er, ec - 1)] else []) ++
  (if ec < 3 then [(er, ec + 1)] else [])

/-- One iteration of `Puzzle::shuffle`'s loop: locate the empty cell, build
the candidate list, draw `gen_range(0..len)` (modelled as `choice % len`,
panicking — `none` — when the range is empty), and apply `move_tile` to the
drawn candidate, discarding its boolean result. -/
def shuffle_step (choice : Nat) (p : Puzzle) : Option Puzzle :=
  match p.find_empty with
  | some (er, ec) =>
      if (valid_moves_of er ec).length = 0 then none
      else
        match (valid_moves_of er ec)[choice % (valid_moves_of er ec).length]? with
        | some (row, col) => (p.move_tile row col).map Prod.fst
        | none => some p
  | none => some p

/-- Run `shuffle_step` for each iteration index in the given list. -/
def shuffle_run (choices : Nat → Nat) : List Nat → Puzzle → Option Puzzle
  | [], p => some p
  | i :: rest, p =>
      match shuffle_step (choices i) p with
      | some q => shuffle_run choices rest q
      | none => none

/-- `Puzzle::shuffle()`: reset to `Puzzle::default()`, run exactly 100 loop
iterations, then reset the move counter to 0.  The board `shuffle` was called
on is overwritten by the reset, so its value is never read. -/
def Puzzle.shuffle (_p : Puzzle) (choices : Nat → Nat) : Option Puzzle :=
  (shuffle_run choices (List.range 100) defaultPuzzle).map fun q =>
    { q with moves := 0 }

/-- The state of the shuffle loop after its first `k` iterations (started, as
`shuffle` does, from the freshly reset `defaultPuzzle`). -/
def shuffleIter (choices : Nat → Nat) (k : Nat) : Option Puzzle :=
  shuffle_run choices (List.range k) defaultPuzzle

/-- `Puzzle::is_solved()`: every non-final cell holds the value its 1-based
row-major position prescribes (the source's running `expected_value` counter,
which equals `4 * i + j + 1` at cell `(i, j)`), and the final cell is empty. -/
def Puzzle.is_solved (p : Puzzle) : Bool :=
  (List.finRange 4).all fun i =>
    (List.finRange 4).all fun j =>
      if i.val = 3 ∧ j.val = 3 then (tileAt p.tiles i j).is_empty
      else (tileAt p.tiles i j).value == some (4 * i.val + j.val + 1)

/-- All sixteen grid positions, in row-major order. -/
def cellList : List (Fin 4 × Fin 4) :=
  (List.finRange 4).flatMap fun i => (List.finRange 4).map fun j => (i, j)

/-- The multiset of cell values of a board. -/
def tileValues (p : Puzzle) : Multiset (Option Nat) :=
  ↑(cellList.map fun q => (tileAt p.tiles q.1 q.2).value)

/-- The multiset of cell values of a well-formed board: one empty sentinel and
the numbers 1..15, one of each. -/
def canonicalValues : Multiset (Option Nat) :=
  ↑((none : Option Nat) :: (List.range 15).map fun k => some (k + 1))

/-- Boards reachable from the initial board by `move_tile` and `shuffle`
operations (in each case, provided the operation did not panic). -/
inductive Reachable : Puzzle → Prop
  | init : Reachable defaultPuzzle
  | move (p p' : Puzzle) (row col : Nat) (b : Bool) :
      Reachable p → p.move_tile row col = some (p', b) → Reachable p'
  | shuf (p p' : Puzzle) (choices : Nat → Nat) :
      Reachable p → p.shuffle choices = some p' → Reachable p'

/-- The board obtained from the solved board by sliding the tile at `(3, 2)`
into the empty cell at `(3, 3)`. -/
def puzzleAfter32 : Puzzle :=
  { tiles := Mathlib.Vector.ofFn fun i => Mathlib.Vector.ofFn fun j =>
      if i.val = 3 ∧ j.val = 2 then Tile.empty
      else if i.val = 3 ∧ j.val = 3 then Tile.new 15
      else Tile.new (4 * i.val + j.val + 1)
    moves := 1 }

/-! ### Basic lemmas about tiles and grid access -/

theorem Tile.is_empty_iff (t : Tile) : t.is_empty = true ↔ t.value = none := by
  cases t with
  | mk v => cases v <;> simp [Tile.is_empty]

theorem tileAt_setTileAt (g : Grid) (i j : Fin 4) (x : Tile) (i' j' : Fin 4) :
    tileAt (setTileAt g i j x) i' j' =
      if i' = i then (if j' = j then x else tileAt g i j') else tileAt g i' j' := by
  unfold tileAt setTileAt
  rcases eq_or_ne i' i with rfl | hi
  · rw [Mathlib.Vector.get_set_same, if_pos rfl]
    rcases eq_or_ne j' j with rfl | hj
    · rw [Mathlib.Vector.get_set_same, if_pos rfl]
    · rw [Mathlib.Vector.get_set_of_ne (Ne.symm hj), if_neg hj]
  · rw [Mathlib.Vector.get_set_of_ne (fun he => hi he.symm), if_neg hi]

/-! ### Helper lemmas about `List.findSome?` -/

theorem findSome?_eq_some_elem {α β : Type} {l : List α} {f : α → Option β} {b : β}
    (h : l.findSome? f = some b) : ∃ a, a ∈ l ∧ f a = some b := by
  induction l with
  | nil => simp [List.findSome?] at h
  | cons x xs ih =>
      rw [List.findSome?_cons] at h
      cases hx : f x with
      | some c => rw [hx] at h; exact ⟨x, List.mem_cons_self x xs, hx.trans h⟩
      | none =>
          rw [hx] at h
          obtain ⟨a, ha, hfa⟩ := ih h
          exact ⟨a, List.mem_cons_of_mem x ha, hfa⟩

theorem findSome?_eq_none_of {α β : Type} {l : List α} {f : α → Option β}
    (h : ∀ a ∈ l, f a = none) : l.findSome? f = none := by
  induction l with
  | nil => simp [List.findSome?]
  | cons x xs ih =>
      rw [List.findSome?_cons, h x (List.mem_cons_self x xs)]
      exact ih fun a ha => h a (List.mem_cons_of_mem x ha)

theorem findSome?_eq_some_of {α β : Type} {l : List α} {f : α → Option β} {a : α} {b : β}
    (hmem : a ∈ l) (hfa : f a = some b) (hrest : ∀ x ∈ l, x ≠ a → f x = none) :
    l.findSome? f = some b := by
  induction l with
  | nil => cases hmem
  | cons x xs ih =>
      rw [List.findSome?_cons]
      rcases eq_or_ne x a with rfl | hxa
      · rw [hfa]
      · rw [hrest x (List.mem_cons_self x xs) hxa]
        rcases List.mem_cons.mp hmem with rfl | hmem'
        · exact absurd rfl hxa
        · exact ih hmem' fun y hy hya => hrest y (List.mem_cons_of_mem x hy) hya

/-! ### Characterization of `find_empty` -/

theorem find_empty_some {p : Puzzle} {er ec : Nat}
    (h : p.find_empty = some (er, ec)) :
    ∃ (hi : er < 4) (hj : ec < 4),
      (tileAt p.tiles ⟨er, hi⟩ ⟨ec, hj⟩).is_empty = true := by
  obtain ⟨i, _, hi⟩ := findSome?_eq_some_elem h
  obtain ⟨j, _, hj⟩ := findSome?_eq_some_elem hi
  by_cases he : (tileAt p.tiles i j).is_empty = true
  · rw [if_pos he] at hj
    obtain ⟨h1, h2⟩ := Prod.mk.injEq .. ▸ Option.some.injEq .. ▸ hj
    subst h1; subst h2
    exact ⟨i.isLt, j.isLt, he⟩
  · rw [if_neg he] at hj
    cases hj

theorem find_empty_of_unique {p : Puzzle} (i j : Fin 4)
    (hemp : (tileAt p.tiles i j).is_empty = true)
    (huniq : ∀ i' j' : Fin 4, (tileAt p.tiles i' j').is_empty = true → i' = i ∧ j' = j) :
    p.find_empty = some (i.val, j.val) := by
  unfold Puzzle.find_empty
  apply findSome?_eq_some_of (a := i) (List.mem_finRange i)
  · apply findSome?_eq_some_of (a := j) (List.mem_finRange j)
    · rw [if_pos hemp]
    · intro j' _ hj'
      rw [if_neg]
      intro he
      exact hj' (huniq i j' he).2
  · intro i' _ hi'
    apply findSome?_eq_none_of
    intro j' _
    rw [if_neg]
    intro he
    exact hi' (huniq i' j' he).1

/-! ### The cell enumeration and value multisets -/

theorem cellList_coe : (↑cellList : Multiset (Fin 4 × Fin 4)) = Finset.univ.val := by
  decide

theorem mem_cellList (q : Fin 4 × Fin 4) : q ∈ cellList := by
  revert q; decide

/-- A board whose cells are those of `p` read through a permutation of the
positions has the same value multiset as `p`. -/
theorem tileValues_comp_equiv (p p' : Puzzle) (σ : Equiv.Perm (Fin 4 × Fin 4))
    (h : ∀ q : Fin 4 × Fin 4, tileAt p'.tiles q.1 q.2 = tileAt p.tiles (σ q).1 (σ q).2) :
    tileValues p' = tileValues p := by
  unfold tileValues
  have h1 : (cellList.map fun q => (tileAt p'.tiles q.1 q.2).value)
      = (cellList.map ⇑σ).map fun q => (tileAt p.tiles q.1 q.2).value := by
    rw [List.map_map]
    exact List.map_congr_left fun q _ => by rw [Function.comp_apply, h q]
  rw [h1, ← Multiset.map_coe, ← Multiset.map_coe, ← Multiset.map_coe,
    Multiset.map_map, ← Multiset.map_map, cellList_coe]
  have h2 : Multiset.map (⇑σ) Finset.univ.val = Finset.univ.val := by
    have h3 := Finset.map_univ_equiv σ
    calc Multiset.map (⇑σ) Finset.univ.val
        = (Finset.univ.map σ.toEmbedding).val := by
          rw [Finset.map_val, Equiv.coe_toEmbedding]
      _ = Finset.univ.val := by rw [h3]
  rw [h2]

/-! ### Adjacency arithmetic -/

theorem is_adjacent_iff {p : Puzzle} {er ec : Nat}
    (hf : p.find_empty = some (er, ec)) (row col : Nat) :
    p.is_adjacent_to_empty row col = true ↔
      ((row = er ∧ (col = ec + 1 ∨ col + 1 = ec)) ∨
       (col = ec ∧ (row = er + 1 ∨ row + 1 = er))) := by
  unfold Puzzle.is_adjacent_to_empty
  rw [hf]
  simp only [Bool.or_eq_true, Bool.and_eq_true, beq_iff_eq, Int.natAbs_eq_iff]
  omega

/-! ### Characterization of `move_tile` -/

theorem move_tile_false_eq {p p' : Puzzle} {row col : Nat}
    (h : p.move_tile row col = some (p', false)) : p' = p := by
  unfold Puzzle.move_tile at h
  split at h
  · split at h
    · split at h
      · simp at h
      · cases h
    · simp only [Option.some.injEq, Prod.mk.injEq] at h
      exact h.1.symm
  · simp only [Option.some.injEq, Prod.mk.injEq] at h
    exact h.1.symm

theorem move_tile_true_eq {p p' : Puzzle} {row col : Nat}
    (h : p.move_tile row col = some (p', true)) :
    ∃ (hr : row < 4) (hc : col < 4) (er ec : Nat) (her : er < 4) (hec : ec < 4),
      p.find_empty = some (er, ec) ∧
      p.is_adjacent_to_empty row col = true ∧
      p' = { tiles := setTileAt
               (setTileAt p.tiles ⟨row, hr⟩ ⟨col, hc⟩ (tileAt p.tiles ⟨er, her⟩ ⟨ec, hec⟩))
               ⟨er, her⟩ ⟨ec, hec⟩ (tileAt p.tiles ⟨row, hr⟩ ⟨col, hc⟩)
             moves := p.moves + 1 } := by
  unfold Puzzle.move_tile at h
  split at h
  case isTrue hadj =>
    split at h
    case h_1 er ec heq =>
      split at h
      case isTrue hb =>
        simp only [Option.some.injEq, Prod.mk.injEq] at h
        exact ⟨hb.1, hb.2.1, er, ec, hb.2.2.1, hb.2.2.2, heq, hadj, h.1.symm⟩
      case isFalse => cases h
    case h_2 => simp at h
  case isFalse => simp at h

/-- Pointwise description of the two-assignment swap in `move_tile`: the
resulting grid reads `g` through the transposition of the two positions. -/
theorem tileAt_swap (g : Grid) (a b q : Fin 4 × Fin 4) (hab : a ≠ b) :
    tileAt (setTileAt (setTileAt g a.1 a.2 (tileAt g b.1 b.2)) b.1 b.2
        (tileAt g a.1 a.2)) q.1 q.2
      = tileAt g ((Equiv.swap a b) q).1 ((Equiv.swap a b) q).2 := by
  rcases a with ⟨a1, a2⟩
  rcases b with ⟨b1, b2⟩
  rcases q with ⟨q1, q2⟩
  rcases eq_or_ne (q1, q2) (b1, b2) with he | hqb
  · obtain ⟨rfl, rfl⟩ := Prod.mk.injEq .. ▸ he
    rw [Equiv.swap_apply_right, tileAt_setTileAt, if_pos rfl, if_pos rfl]
  · rcases eq_or_ne (q1, q2) (a1, a2) with he | hqa
    · obtain ⟨rfl, rfl⟩ := Prod.mk.injEq .. ▸ he
      rw [Equiv.swap_apply_left]
      rw [tileAt_setTileAt]
      have hx : tileAt (setTileAt g q1 q2 (tileAt g b1 b2)) q1 q2 = tileAt g b1 b2 := by
        rw [tileAt_setTileAt, if_pos rfl, if_pos rfl]
      rcases eq_or_ne q1 b1 with rfl | h1
      · have h2 : q2 ≠ b2 := fun he2 => hqb (by rw [he2])
        rw [if_pos rfl, if_neg h2, hx]
      · rw [if_neg h1, hx]
    · rw [Equiv.swap_apply_of_ne_of_ne hqa hqb]
      have hx : tileAt (setTileAt g a1 a2 (tileAt g b1 b2)) q1 q2 = tileAt g q1 q2 := by
        rw [tileAt_setTileAt]
        rcases eq_or_ne q1 a1 with rfl | h1
        · have h2 : q2 ≠ a2 := fun he2 => hqa (by rw [he2])
          rw [if_pos rfl, if_neg h2]
        · rw [if_neg h1]
      rw [tileAt_setTileAt]
      rcases eq_or_ne q1 b1 with rfl | h1
      · have h2 : q2 ≠ b2 := fun he2 => hqb (by rw [he2])
        rw [if_pos rfl, if_neg h2, tileAt_setTileAt]
        rcases eq_or_ne q1 a1 with rfl | h1'
        · have h2' : q2 ≠ a2 := fun he2 => hqa (by rw [he2])
          rw [if_pos rfl, if_neg h2']
        · rw [if_neg h1']
      · rw [if_neg h1, hx]

/-- A `move_tile` call that returns at all leaves the multiset of cell values
unchanged (a successful move merely swaps two cells). -/
theorem tileValues_move_tile {p p' : Puzzle} {row col : Nat} {b : Bool}
    (h : p.move_tile row col = some (p', b)) : tileValues p' = tileValues p := by
  cases b
  · rw [move_tile_false_eq h]
  · obtain ⟨hr, hc, er, ec, her, hec, hf, hadj, rfl⟩ := move_tile_true_eq h
    have harith := (is_adjacent_iff hf row col).mp hadj
    have hab : ((⟨row, hr⟩ : Fin 4), (⟨col, hc⟩ : Fin 4))
        ≠ ((⟨er, her⟩ : Fin 4), (⟨ec, hec⟩ : Fin 4)) := by
      intro he
      obtain ⟨h1, h2⟩ := Prod.mk.injEq .. ▸ he
      have hv1 : row = er := congrArg Fin.val h1
      have hv2 : col = ec := congrArg Fin.val h2
      omega
    apply tileValues_comp_equiv _ _
      (Equiv.swap (⟨row, hr⟩, ⟨col, hc⟩) (⟨er, her⟩, ⟨ec, hec⟩))
    intro q
    exact tileAt_swap p.tiles _ _ q hab

/-! ### Well-formed boards have a unique empty cell -/

theorem tileValues_eq_map_univ (p : Puzzle) :
    tileValues p
      = Multiset.map (fun q : Fin 4 × Fin 4 => (tileAt p.tiles q.1 q.2).value)
          Finset.univ.val := by
  unfold tileValues
  rw [← Multiset.map_coe, cellList_coe]

theorem unique_empty_of_wf {p : Puzzle} (hw : tileValues p = canonicalValues) :
    ∃ q : Fin 4 × Fin 4, (tileAt p.tiles q.1 q.2).value = none ∧
      ∀ q' : Fin 4 × Fin 4, (tileAt p.tiles q'.1 q'.2).value = none → q' = q := by
  have hcount : Multiset.count none (tileValues p) = 1 := by rw [hw]; decide
  rw [tileValues_eq_map_univ, Multiset.count_map, ← Finset.filter_val] at hcount
  have hcard : (Finset.univ.filter
      (fun a : Fin 4 × Fin 4 => none = (tileAt p.tiles a.1 a.2).value)).card = 1 :=
    hcount
  obtain ⟨a, ha⟩ := Finset.card_eq_one.mp hcard
  refine ⟨a, ?_, ?_⟩
  · have : a ∈ Finset.univ.filter
        (fun q : Fin 4 × Fin 4 => none = (tileAt p.tiles q.1 q.2).value) := by
      rw [ha]; exact Finset.mem_singleton_self a
    exact ((Finset.mem_filter.mp this).2).symm
  · intro q' hq'
    have : q' ∈ Finset.univ.filter
        (fun q : Fin 4 × Fin 4 => none = (tileAt p.tiles q.1 q.2).value) :=
      Finset.mem_filter.mpr ⟨Finset.mem_univ q', hq'.symm⟩
    rw [ha] at this
    exact Finset.mem_singleton.mp this

/-- On a well-formed board, `find_empty` returns the coordinates of the unique
empty cell. -/
theorem find_empty_of_wf {p : Puzzle} (hw : tileValues p = canonicalValues) :
    ∃ q : Fin 4 × Fin 4, p.find_empty = some (q.1.val, q.2.val) ∧
      (tileAt p.tiles q.1 q.2).value = none ∧
      ∀ q' : Fin 4 × Fin 4, (tileAt p.tiles q'.1 q'.2).value = none → q' = q := by
  obtain ⟨q, hq, huniq⟩ := unique_empty_of_wf hw
  refine ⟨q, ?_, hq, huniq⟩
  apply find_empty_of_unique q.1 q.2 ((Tile.is_empty_iff _).mpr hq)
  intro i' j' h'
  have := huniq (i', j') ((Tile.is_empty_iff _).mp h')
  exact ⟨congrArg Prod.fst this, congrArg Prod.snd this⟩

/-! ### The shuffle candidate list -/

theorem mem_valid_moves_iff {er ec : Nat} (her : er < 4) (hec : ec < 4) (r c : Nat) :
    (r, c) ∈ valid_moves_of er ec ↔
      (r < 4 ∧ c < 4 ∧
        ((r = er ∧ (c = ec + 1 ∨ c + 1 = ec)) ∨
         (c = ec ∧ (r = er + 1 ∨ r + 1 = er)))) := by
  interval_cases er <;> interval_cases ec <;>
    simp [valid_moves_of, List.mem_append, Prod.mk.injEq] <;> omega

theorem valid_moves_length {er ec : Nat} (her : er < 4) (hec : ec < 4) :
    2 ≤ (valid_moves_of er ec).length ∧ (valid_moves_of er ec).length ≤ 4 := by
  interval_cases er <;> interval_cases ec <;> decide

/-- Any candidate from the shuffle list is a legal move: `move_tile` on it
returns `true`. -/
theorem move_tile_of_mem_valid_moves {p : Puzzle} {er ec r c : Nat}
    (hf : p.find_empty = some (er, ec)) (hmem : (r, c) ∈ valid_moves_of er ec) :
    ∃ p', p.move_tile r c = some (p', true) := by
  obtain ⟨her, hec, _⟩ := find_empty_some hf
  obtain ⟨hr, hc, harith⟩ := (mem_valid_moves_iff her hec r c).mp hmem
  have hadj : p.is_adjacent_to_empty r c = true := (is_adjacent_iff hf r c).mpr harith
  have hmv : p.move_tile r c = some
      ({ tiles := setTileAt
           (setTileAt p.tiles ⟨r, hr⟩ ⟨c, hc⟩ (tileAt p.tiles ⟨er, her⟩ ⟨ec, hec⟩))
           ⟨er, her⟩ ⟨ec, hec⟩ (tileAt p.tiles ⟨r, hr⟩ ⟨c, hc⟩)
         moves := p.moves + 1 }, true) := by
    unfold Puzzle.move_tile
    rw [hf, hadj]
    rw [if_pos rfl]
    exact dif_pos ⟨hr, hc, her, hec⟩
  exact ⟨_, hmv⟩

/-! ### The shuffle loop never panics and preserves the value multiset -/

theorem tileValues_default : tileValues defaultPuzzle = canonicalValues := by
  decide

theorem shuffle_step_some (choice : Nat) (p : Puzzle) :
    ∃ p', shuffle_step choice p = some p' ∧ tileValues p' = tileValues p := by
  cases hfe : p.find_empty with
  | none => exact ⟨p, by simp only [shuffle_step, hfe], rfl⟩
  | some rc =>
      rcases rc with ⟨er, ec⟩
      obtain ⟨her, hec, _⟩ := find_empty_some hfe
      have hlen := valid_moves_length her hec
      have hlen0 : ¬((valid_moves_of er ec).length = 0) := by omega
      have hidx : choice % (valid_moves_of er ec).length < (valid_moves_of er ec).length :=
        Nat.mod_lt _ (by omega)
      have hrc : (valid_moves_of er ec)[choice % (valid_moves_of er ec).length]?
          = some ((valid_moves_of er ec)[choice % (valid_moves_of er ec).length]) :=
        List.getElem?_eq_getElem hidx
      have hmem : (valid_moves_of er ec)[choice % (valid_moves_of er ec).length]
          ∈ valid_moves_of er ec := List.getElem_mem hidx
      obtain ⟨r, c, hpair⟩ : ∃ r c,
          (valid_moves_of er ec)[choice % (valid_moves_of er ec).length] = (r, c) :=
        ⟨_, _, rfl⟩
      rw [hpair] at hrc hmem
      obtain ⟨p', hp'⟩ := move_tile_of_mem_valid_moves hfe hmem
      refine ⟨p', ?_, tileValues_move_tile hp'⟩
      simp only [shuffle_step, hfe, if_neg hlen0, hrc, hp', Option.map_some']

theorem shuffle_run_some (choices : Nat → Nat) (l : List Nat) :
    ∀ p : Puzzle, ∃ q, shuffle_run choices l p = some q ∧ tileValues q = tileValues p := by
  induction l with
  | nil => intro p; exact ⟨p, rfl, rfl⟩
  | cons i rest ih =>
      intro p
      obtain ⟨q, hq, hv⟩ := shuffle_step_some (choices i) p
      obtain ⟨r, hr, hv'⟩ := ih q
      refine ⟨r, ?_, hv'.trans hv⟩
      simp only [shuffle_run, hq]
      exact hr

theorem shuffle_total (p : Puzzle) (choices : Nat → Nat) :
    ∃ q, p.shuffle choices = some q ∧ q.moves = 0 ∧ tileValues q = canonicalValues := by
  obtain ⟨q, hq, hv⟩ := shuffle_run_some choices (List.range 100) defaultPuzzle
  refine ⟨{ q with moves := 0 }, ?_, rfl, ?_⟩
  · unfold Puzzle.shuffle
    rw [hq, Option.map_some']
  · have hv' : tileValues { q with moves := 0 } = tileValues q := rfl
    rw [hv', hv, tileValues_default]

/-- An adjacent, in-range target always makes `move_tile` perform the swap and
return `true`. -/
theorem move_tile_succeeds {p : Puzzle} {er ec : Nat} (hf : p.find_empty = some (er, ec))
    {r c : Nat} (hadj : p.is_adjacent_to_empty r c = true) (hr : r < 4) (hc : c < 4) :
    ∃ (her : er < 4) (hec : ec < 4), p.move_tile r c = some
      ({ tiles := setTileAt
           (setTileAt p.tiles ⟨r, hr⟩ ⟨c, hc⟩ (tileAt p.tiles ⟨er, her⟩ ⟨ec, hec⟩))
           ⟨er, her⟩ ⟨ec, hec⟩ (tileAt p.tiles ⟨r, hr⟩ ⟨c, hc⟩)
         moves := p.moves + 1 }, true) := by
  obtain ⟨her, hec, _⟩ := find_empty_some hf
  refine ⟨her, hec, ?_⟩
  unfold Puzzle.move_tile
  rw [hf, hadj]
  rw [if_pos rfl]
  exact dif_pos ⟨hr, hc, her, hec⟩

/-- Grids agreeing cellwise are equal. -/
theorem grid_ext {g g' : Grid} (h : ∀ i j : Fin 4, tileAt g i j = tileAt g' i j) :
    g = g' := by
  apply Mathlib.Vector.ext
  intro i
  apply Mathlib.Vector.ext
  intro j
  exact h i j

/-! ### Claim theorems -/

/-- Claim C1: every board reachable from the initial board by `move_tile` and
`shuffle` operations has exactly one empty cell, and its cell values are a
permutation of the empty sentinel together with the numbers 1..15 (no
duplicates, no gaps). -/
theorem C1_reachable_invariant (p : Puzzle) (h : Reachable p) :
    tileValues p = canonicalValues ∧
      ∃ q : Fin 4 × Fin 4, (tileAt p.tiles q.1 q.2).value = none ∧
        ∀ q' : Fin 4 × Fin 4, (tileAt p.tiles q'.1 q'.2).value = none → q' = q := by
  have hwf : tileValues p = canonicalValues := by
    induction h with
    | init => exact tileValues_default
    | move p p' row col b _ hmv ih => rw [tileValues_move_tile hmv, ih]
    | shuf p p' choices _ hsh ih =>
        obtain ⟨q, hq, _, hv⟩ := shuffle_total p choices
        have hqp : q = p' := Option.some.inj (hq.symm.trans hsh)
        rw [← hqp]
        exact hv
  exact ⟨hwf, unique_empty_of_wf hwf⟩

theorem C1_witness :
    Reachable defaultPuzzle ∧
      (tileValues defaultPuzzle = canonicalValues ∧
        ∃ q : Fin 4 × Fin 4, (tileAt defaultPuzzle.tiles q.1 q.2).value = none ∧
          ∀ q' : Fin 4 × Fin 4,
            (tileAt defaultPuzzle.tiles q'.1 q'.2).value = none → q' = q) :=
  ⟨Reachable.init, C1_reachable_invariant defaultPuzzle Reachable.init⟩

/-- Claim C3: a `move_tile` call that returns `false` leaves the grid and the
move counter unchanged; a call that returns `true` increments the counter by
exactly 1. -/
theorem C3_move_counter_discipline (p p' : Puzzle) (row col : Nat) (b : Bool)
    (h : p.move_tile row col = some (p', b)) :
    (b = false → p'.tiles = p.tiles ∧ p'.moves = p.moves) ∧
    (b = true → p'.moves = p.moves + 1) := by
  constructor
  · intro hb
    subst hb
    rw [move_tile_false_eq h]
    exact ⟨rfl, rfl⟩
  · intro hb
    subst hb
    obtain ⟨hr, hc, er, ec, her, hec, _, _, rfl⟩ := move_tile_true_eq h
    rfl

theorem C3_witness :
    defaultPuzzle.move_tile 0 0 = some (defaultPuzzle, false) ∧
      ((false = false →
          defaultPuzzle.tiles = defaultPuzzle.tiles ∧
            defaultPuzzle.moves = defaultPuzzle.moves) ∧
        (false = true → defaultPuzzle.moves = defaultPuzzle.moves + 1)) :=
  ⟨by decide, C3_move_counter_discipline defaultPuzzle defaultPuzzle 0 0 false (by decide)⟩

/-- Claim C5: after `shuffle` returns, the move counter is exactly 0,
whatever board and counter value it was called on. -/
theorem C5_shuffle_resets_counter (p : Puzzle) (choices : Nat → Nat) :
    ∃ p', p.shuffle choices = some p' ∧ p'.moves = 0 := by
  obtain ⟨q, h1, h2, _⟩ := shuffle_total p choices
  exact ⟨q, h1, h2⟩

/-- Claim C9: `shuffle` first resets the board to the canonical solved layout,
so with the same injected choice sequence its result is independent of the
board it was called on. -/
theorem C9_shuffle_independent_of_state (p q : Puzzle) (choices : Nat → Nat) :
    p.shuffle choices = q.shuffle choices := rfl

/-- Claim C10: in-range coordinates never make `move_tile`'s grid indexing go
out of bounds (no panic), but the in-range precondition is also necessary:
on the solved board the out-of-range input `(3, 4)` passes the adjacency
check — which does not bounds-check its arguments — and the subsequent grid
indexing goes out of bounds. -/
theorem C10_bounds_necessary_and_sufficient (p : Puzzle) (row col : Nat)
    (hr : row < 4) (hc : col < 4) :
    p.move_tile row col ≠ none ∧
      (defaultPuzzle.is_adjacent_to_empty 3 4 = true ∧
        defaultPuzzle.move_tile 3 4 = none) := by
  refine ⟨?_, by decide, by decide⟩
  cases hadj : p.is_adjacent_to_empty row col with
  | false =>
      unfold Puzzle.move_tile
      rw [hadj]
      simp
  | true =>
      cases hfe : p.find_empty with
      | none =>
          unfold Puzzle.move_tile
          rw [hadj, hfe]
          simp
      | some rc =>
          rcases rc with ⟨er, ec⟩
          obtain ⟨her, hec, hmv⟩ := move_tile_succeeds hfe hadj hr hc
          rw [hmv]
          simp

theorem C10_witness :
    (1 : Nat) < 4 ∧ (2 : Nat) < 4 ∧
      (defaultPuzzle.move_tile 1 2 ≠ none ∧
        (defaultPuzzle.is_adjacent_to_empty 3 4 = true ∧
          defaultPuzzle.move_tile 3 4 = none)) :=
  ⟨by decide, by decide,
    C10_bounds_necessary_and_sufficient defaultPuzzle 1 2 (by decide) (by decide)⟩

/-- Claim C2: for a board whose empty cell is at `(er, ec)` and any in-range
`(row, col)`, `move_tile` succeeds (returns `true`) iff `(row, col)` is
four-directionally adjacent to the empty cell; on the empty cell's own
coordinates it returns `false` and changes nothing. -/
theorem C2_move_iff_adjacent (p : Puzzle) (er ec row col : Nat)
    (hf : p.find_empty = some (er, ec)) (hr : row < 4) (hc : col < 4) :
    ((∃ p', p.move_tile row col = some (p', true)) ↔
      ((row = er ∧ (col = ec + 1 ∨ col + 1 = ec)) ∨
       (col = ec ∧ (row = er + 1 ∨ row + 1 = er)))) ∧
      p.move_tile er ec = some (p, false) := by
  constructor
  · constructor
    · rintro ⟨p', hp'⟩
      obtain ⟨_, _, er', ec', _, _, hf', hadj, _⟩ := move_tile_true_eq hp'
      have hee : (er, ec) = (er', ec') := Option.some.inj (hf.symm.trans hf')
      obtain ⟨he1, he2⟩ := Prod.mk.injEq .. ▸ hee
      subst he1
      subst he2
      exact (is_adjacent_iff hf row col).mp hadj
    · intro harith
      obtain ⟨_, _, hmv⟩ :=
        move_tile_succeeds hf ((is_adjacent_iff hf row col).mpr harith) hr hc
      exact ⟨_, hmv⟩
  · have hadj : p.is_adjacent_to_empty er ec = false := by
      rw [← Bool.not_eq_true]
      intro hx
      have := (is_adjacent_iff hf er ec).mp hx
      omega
    unfold Puzzle.move_tile
    rw [hadj]
    simp

theorem C2_witness :
    defaultPuzzle.find_empty = some (3, 3) ∧ (3 : Nat) < 4 ∧ (2 : Nat) < 4 ∧
      (((∃ p', defaultPuzzle.move_tile 3 2 = some (p', true)) ↔
          ((3 = 3 ∧ (2 = 3 + 1 ∨ 2 + 1 = 3)) ∨ (2 = 3 ∧ (3 = 3 + 1 ∨ 3 + 1 = 3)))) ∧
        defaultPuzzle.move_tile 3 3 = some (defaultPuzzle, false)) :=
  ⟨by decide, by decide, by decide,
    C2_move_iff_adjacent defaultPuzzle 3 3 3 2 (by decide) (by decide) (by decide)⟩

/-- Claim C7: `is_solved` is true iff every non-final cell holds the numbered
value equal to its 1-based row-major position index and the final cell `(3,3)`
holds the empty tile; in particular it is true on the default board, whose
move counter is 0. -/
theorem C7_is_solved_iff (p : Puzzle) :
    (p.is_solved = true ↔
      ((∀ i j : Fin 4, ¬(i.val = 3 ∧ j.val = 3) →
          (tileAt p.tiles i j).value = some (4 * i.val + j.val + 1)) ∧
        (tileAt p.tiles 3 3).value = none)) ∧
      defaultPuzzle.is_solved = true ∧ defaultPuzzle.moves = 0 := by
  refine ⟨?_, by decide, rfl⟩
  unfold Puzzle.is_solved
  simp only [List.all_eq_true, List.mem_finRange, true_implies]
  constructor
  · intro h
    constructor
    · intro i j hij
      have hx := h i j
      rw [if_neg hij] at hx
      exact beq_iff_eq.mp hx
    · have hx := h 3 3
      rw [if_pos ⟨rfl, rfl⟩] at hx
      exact (Tile.is_empty_iff _).mp hx
  · rintro ⟨h1, h2⟩ i j
    by_cases hij : i.val = 3 ∧ j.val = 3
    · rw [if_pos hij]
      have hi : i = (3 : Fin 4) := Fin.ext hij.1
      have hj : j = (3 : Fin 4) := Fin.ext hij.2
      subst hi
      subst hj
      exact (Tile.is_empty_iff _).mpr h2
    · rw [if_neg hij]
      exact beq_iff_eq.mpr (h1 i j hij)

/-- Component form of `tileAt_swap`. -/
theorem tileAt_swap_comp (g : Grid) (a1 a2 b1 b2 q1 q2 : Fin 4)
    (hab : ((a1, a2) : Fin 4 × Fin 4) ≠ (b1, b2)) :
    tileAt (setTileAt (setTileAt g a1 a2 (tileAt g b1 b2)) b1 b2 (tileAt g a1 a2)) q1 q2
      = tileAt g ((Equiv.swap ((a1, a2) : Fin 4 × Fin 4) (b1, b2)) (q1, q2)).1
          ((Equiv.swap ((a1, a2) : Fin 4 × Fin 4) (b1, b2)) (q1, q2)).2 :=
  tileAt_swap g (a1, a2) (b1, b2) (q1, q2) hab

/-- Claim C4: a successful `move_tile (row, col)` exchanges the contents of
`(row, col)` and of the cell that held the empty tile (so the empty tile ends
up at `(row, col)`), and leaves every other cell unchanged. -/
theorem C4_move_swaps_exactly (p p' : Puzzle) (ri ci ei ej : Fin 4)
    (hf : p.find_empty = some (ei.val, ej.val))
    (hm : p.move_tile ri.val ci.val = some (p', true)) :
    (tileAt p'.tiles ri ci).value = none ∧
      tileAt p'.tiles ri ci = tileAt p.tiles ei ej ∧
      tileAt p'.tiles ei ej = tileAt p.tiles ri ci ∧
      ∀ i j : Fin 4, ¬(i = ri ∧ j = ci) → ¬(i = ei ∧ j = ej) →
        tileAt p'.tiles i j = tileAt p.tiles i j := by
  obtain ⟨hr, hc, er, ec, her, hec, hf', hadj, rfl⟩ := move_tile_true_eq hm
  have hee : (ei.val, ej.val) = (er, ec) := Option.some.inj (hf.symm.trans hf')
  obtain ⟨he1, he2⟩ := Prod.mk.injEq .. ▸ hee
  have hei : (⟨er, her⟩ : Fin 4) = ei := Fin.ext he1.symm
  have hej : (⟨ec, hec⟩ : Fin 4) = ej := Fin.ext he2.symm
  have hri : (⟨ri.val, hr⟩ : Fin 4) = ri := Fin.ext rfl
  have hci : (⟨ci.val, hc⟩ : Fin 4) = ci := Fin.ext rfl
  rw [hei, hej, hri, hci]
  have harith := (is_adjacent_iff hf' ri.val ci.val).mp hadj
  have hne : ((ri, ci) : Fin 4 × Fin 4) ≠ (ei, ej) := by
    intro hx
    obtain ⟨h1, h2⟩ := Prod.mk.injEq .. ▸ hx
    have hv1 : ri.val = ei.val := congrArg Fin.val h1
    have hv2 : ci.val = ej.val := congrArg Fin.val h2
    omega
  have hempty : (tileAt p.tiles ei ej).value = none := by
    obtain ⟨hi, hj, hx⟩ := find_empty_some hf
    have h1 : (⟨ei.val, hi⟩ : Fin 4) = ei := Fin.ext rfl
    have h2 : (⟨ej.val, hj⟩ : Fin 4) = ej := Fin.ext rfl
    rw [h1, h2] at hx
    exact (Tile.is_empty_iff _).mp hx
  refine ⟨?_, ?_, ?_, ?_⟩
  · have h1 := tileAt_swap_comp p.tiles ri ci ei ej ri ci hne
    rw [Equiv.swap_apply_left] at h1
    dsimp only at h1
    rw [h1]
    exact hempty
  · have h1 := tileAt_swap_comp p.tiles ri ci ei ej ri ci hne
    rw [Equiv.swap_apply_left] at h1
    dsimp only at h1
    exact h1
  · have h1 := tileAt_swap_comp p.tiles ri ci ei ej ei ej hne
    rw [Equiv.swap_apply_right] at h1
    dsimp only at h1
    exact h1
  · intro i j hic hie
    have hq1 : ((i, j) : Fin 4 × Fin 4) ≠ (ri, ci) := by
      intro hx
      obtain ⟨h1, h2⟩ := Prod.mk.injEq .. ▸ hx
      exact hic ⟨h1, h2⟩
    have hq2 : ((i, j) : Fin 4 × Fin 4) ≠ (ei, ej) := by
      intro hx
      obtain ⟨h1, h2⟩ := Prod.mk.injEq .. ▸ hx
      exact hie ⟨h1, h2⟩
    have h1 := tileAt_swap_comp p.tiles ri ci ei ej i j hne
    rw [Equiv.swap_apply_of_ne_of_ne hq1 hq2] at h1
    dsimp only at h1
    exact h1

theorem C4_witness :
    defaultPuzzle.find_empty = some ((3 : Fin 4).val, (3 : Fin 4).val) ∧
      defaultPuzzle.move_tile (3 : Fin 4).val (2 : Fin 4).val
        = some (puzzleAfter32, true) ∧
      ((tileAt puzzleAfter32.tiles 3 2).value = none ∧
        tileAt puzzleAfter32.tiles 3 2 = tileAt defaultPuzzle.tiles 3 3 ∧
        tileAt puzzleAfter32.tiles 3 3 = tileAt defaultPuzzle.tiles 3 2 ∧
        ∀ i j : Fin 4, ¬(i = 3 ∧ j = 2) → ¬(i = 3 ∧ j = 3) →
          tileAt puzzleAfter32.tiles i j = tileAt defaultPuzzle.tiles i j) :=
  ⟨by decide, by decide,
    C4_move_swaps_exactly defaultPuzzle puzzleAfter32 3 2 3 3 (by decide) (by decide)⟩

/-- Every prefix of the shuffle loop completes without panicking and keeps the
board well-formed. -/
theorem shuffleIter_wf (choices : Nat → Nat) (k : Nat) :
    ∃ p, shuffleIter choices k = some p ∧ tileValues p = canonicalValues := by
  obtain ⟨p, hp, hv⟩ := shuffle_run_some choices (List.range k) defaultPuzzle
  exact ⟨p, hp, hv.trans tileValues_default⟩

/-- Detailed run of one shuffle iteration on a board with an empty cell: the
index draw succeeds, the candidate lookup succeeds, and the inner `move_tile`
returns `true`. -/
theorem shuffle_step_detail {p : Puzzle} {er ec : Nat}
    (hfe : p.find_empty = some (er, ec)) (choice : Nat) :
    ∃ rc p',
      (valid_moves_of er ec)[choice % (valid_moves_of er ec).length]? = some rc ∧
        p.move_tile rc.1 rc.2 = some (p', true) ∧
        shuffle_step choice p = some p' := by
  obtain ⟨her, hec, _⟩ := find_empty_some hfe
  have hlen := valid_moves_length her hec
  have hlen0 : ¬((valid_moves_of er ec).length = 0) := by omega
  have hidx : choice % (valid_moves_of er ec).length < (valid_moves_of er ec).length :=
    Nat.mod_lt _ (by omega)
  have hrc : (valid_moves_of er ec)[choice % (valid_moves_of er ec).length]?
      = some ((valid_moves_of er ec)[choice % (valid_moves_of er ec).length]) :=
    List.getElem?_eq_getElem hidx
  have hmem : (valid_moves_of er ec)[choice % (valid_moves_of er ec).length]
      ∈ valid_moves_of er ec := List.getElem_mem hidx
  obtain ⟨r, c, hpair⟩ : ∃ r c,
      (valid_moves_of er ec)[choice % (valid_moves_of er ec).length] = (r, c) :=
    ⟨_, _, rfl⟩
  rw [hpair] at hrc hmem
  obtain ⟨p', hp'⟩ := move_tile_of_mem_valid_moves hfe hmem
  refine ⟨(r, c), p', hrc, hp', ?_⟩
  simp only [shuffle_step, hfe, if_neg hlen0, hrc, hp', Option.map_some']

/-- Claim C6: at every one of the 100 shuffle iterations, the candidate list
is exactly the set of in-bounds four-directional neighbours of the empty
cell, has between 2 and 4 entries, the random index is drawn from a non-empty
range, the candidate lookup succeeds, and the inner `move_tile` call returns
`true`. -/
theorem C6_shuffle_iterations_safe (choices : Nat → Nat) (k : Nat) (hk : k < 100) :
    ∃ (p : Puzzle) (er ec : Nat),
      shuffleIter choices k = some p ∧
      p.find_empty = some (er, ec) ∧
      (∀ r c : Nat, (r, c) ∈ valid_moves_of er ec ↔
        (r < 4 ∧ c < 4 ∧
          ((r = er ∧ (c = ec + 1 ∨ c + 1 = ec)) ∨
           (c = ec ∧ (r = er + 1 ∨ r + 1 = er))))) ∧
      2 ≤ (valid_moves_of er ec).length ∧ (valid_moves_of er ec).length ≤ 4 ∧
      choices k % (valid_moves_of er ec).length < (valid_moves_of er ec).length ∧
      ∃ rc p',
        (valid_moves_of er ec)[choices k % (valid_moves_of er ec).length]? = some rc ∧
          p.move_tile rc.1 rc.2 = some (p', true) ∧
          shuffle_step (choices k) p = some p' := by
  obtain ⟨p, hp, hwf⟩ := shuffleIter_wf choices k
  obtain ⟨q, hfe, _, _⟩ := find_empty_of_wf hwf
  have hlen := valid_moves_length q.1.isLt q.2.isLt
  refine ⟨p, q.1.val, q.2.val, hp, hfe,
    mem_valid_moves_iff q.1.isLt q.2.isLt, hlen.1, hlen.2, ?_, ?_⟩
  · exact Nat.mod_lt _ (by omega)
  · exact shuffle_step_detail hfe (choices k)

/-- A fixed injected choice sequence used to exercise the shuffle loop. -/
def zeroChoices : Nat → Nat := fun _ => 0

theorem C6_witness :
    (0 : Nat) < 100 ∧
      ∃ (p : Puzzle) (er ec : Nat),
        shuffleIter zeroChoices 0 = some p ∧
        p.find_empty = some (er, ec) ∧
        (∀ r c : Nat, (r, c) ∈ valid_moves_of er ec ↔
          (r < 4 ∧ c < 4 ∧
            ((r = er ∧ (c = ec + 1 ∨ c + 1 = ec)) ∨
             (c = ec ∧ (r = er + 1 ∨ r + 1 = er))))) ∧
        2 ≤ (valid_moves_of er ec).length ∧ (valid_moves_of er ec).length ≤ 4 ∧
        zeroChoices 0 % (valid_moves_of er ec).length < (valid_moves_of er ec).length ∧
        ∃ rc p',
          (valid_moves_of er ec)[zeroChoices 0 % (valid_moves_of er ec).length]?
              = some rc ∧
            p.move_tile rc.1 rc.2 = some (p', true) ∧
            shuffle_step (zeroChoices 0) p = some p' :=
  ⟨by decide, C6_shuffle_iterations_safe zeroChoices 0 (by decide)⟩

/-- Claim C8 as stated is false: after sliding `(3,2)` into the empty cell at
`(3,3)`, the empty cell's new position is `(3,2)` (the moved cell's old
position), and a second `move_tile` at those coordinates is a rejected no-op
(the empty cell is not adjacent to itself), leaving the board one move away
from the original with the counter at 1, not back at the original with the
counter at 2. -/
theorem C8_counterexample :
    defaultPuzzle.move_tile 3 2 = some (puzzleAfter32, true) ∧
      puzzleAfter32.find_empty = some (3, 2) ∧
      puzzleAfter32.move_tile 3 2 = some (puzzleAfter32, false) ∧
      puzzleAfter32.tiles ≠ defaultPuzzle.tiles ∧
      puzzleAfter32.moves = defaultPuzzle.moves + 1 := by
  refine ⟨by decide, by decide, by decide, by decide, by decide⟩

/-- Claim C8, amended: moving cell `X` into the empty cell and then applying
`move_tile` to the empty cell's *original* position (which is where the moved
tile now sits) restores the grid exactly, with the counter incremented by 2. -/
theorem C8_amended_roundtrip (p p1 : Puzzle) (er ec row col : Nat)
    (hw : tileValues p = canonicalValues)
    (hf : p.find_empty = some (er, ec))
    (hm : p.move_tile row col = some (p1, true)) :
    ∃ p2, p1.move_tile er ec = some (p2, true) ∧
      p2.tiles = p.tiles ∧ p2.moves = p.moves + 2 := by
  obtain ⟨hr, hc, er', ec', her, hec, hf', hadj, rfl⟩ := move_tile_true_eq hm
  have hee : (er, ec) = (er', ec') := Option.some.inj (hf.symm.trans hf')
  obtain ⟨he1, he2⟩ := Prod.mk.injEq .. ▸ hee
  subst he1
  subst he2
  have harith := (is_adjacent_iff hf row col).mp hadj
  have hne : ((⟨row, hr⟩ : Fin 4), (⟨col, hc⟩ : Fin 4))
      ≠ ((⟨er, her⟩ : Fin 4), (⟨ec, hec⟩ : Fin 4)) := by
    intro hx
    obtain ⟨h1, h2⟩ := Prod.mk.injEq .. ▸ hx
    have hv1 : row = er := congrArg Fin.val h1
    have hv2 : col = ec := congrArg Fin.val h2
    omega
  have hw1 := (tileValues_move_tile hm).trans hw
  have hempB : (tileAt p.tiles ⟨er, her⟩ ⟨ec, hec⟩).value = none := by
    obtain ⟨hi, hj, hx⟩ := find_empty_some hf
    exact (Tile.is_empty_iff _).mp hx
  have hA := tileAt_swap_comp p.tiles ⟨row, hr⟩ ⟨col, hc⟩ ⟨er, her⟩ ⟨ec, hec⟩
    ⟨row, hr⟩ ⟨col, hc⟩ hne
  rw [Equiv.swap_apply_left] at hA
  dsimp only at hA
  have hemptyA : (tileAt
      (setTileAt (setTileAt p.tiles ⟨row, hr⟩ ⟨col, hc⟩ (tileAt p.tiles ⟨er, her⟩ ⟨ec, hec⟩))
        ⟨er, her⟩ ⟨ec, hec⟩ (tileAt p.tiles ⟨row, hr⟩ ⟨col, hc⟩))
      ⟨row, hr⟩ ⟨col, hc⟩).value = none := by
    rw [hA]
    exact hempB
  obtain ⟨q0, hq0none, hq0uniq⟩ := unique_empty_of_wf hw1
  have hAq0 : ((⟨row, hr⟩ : Fin 4), (⟨col, hc⟩ : Fin 4)) = q0 :=
    hq0uniq (⟨row, hr⟩, ⟨col, hc⟩) hemptyA
  have huniqA : ∀ q' : Fin 4 × Fin 4,
      (tileAt (setTileAt (setTileAt p.tiles ⟨row, hr⟩ ⟨col, hc⟩
          (tileAt p.tiles ⟨er, her⟩ ⟨ec, hec⟩))
        ⟨er, her⟩ ⟨ec, hec⟩ (tileAt p.tiles ⟨row, hr⟩ ⟨col, hc⟩)) q'.1 q'.2).value = none →
      q' = (⟨row, hr⟩, ⟨col, hc⟩) :=
    fun q' h' => (hq0uniq q' h').trans hAq0.symm
  have hfe1 : Puzzle.find_empty
      { tiles := setTileAt (setTileAt p.tiles ⟨row, hr⟩ ⟨col, hc⟩
          (tileAt p.tiles ⟨er, her⟩ ⟨ec, hec⟩))
          ⟨er, her⟩ ⟨ec, hec⟩ (tileAt p.tiles ⟨row, hr⟩ ⟨col, hc⟩)
        moves := p.moves + 1 } = some (row, col) := by
    have hx := find_empty_of_unique (p :=
      { tiles := setTileAt (setTileAt p.tiles ⟨row, hr⟩ ⟨col, hc⟩
          (tileAt p.tiles ⟨er, her⟩ ⟨ec, hec⟩))
          ⟨er, her⟩ ⟨ec, hec⟩ (tileAt p.tiles ⟨row, hr⟩ ⟨col, hc⟩)
        moves := p.moves + 1 })
      ⟨row, hr⟩ ⟨col, hc⟩ ((Tile.is_empty_iff _).mpr hemptyA) ?uniq
    case uniq =>
      intro i' j' h'
      have h'' := huniqA (i', j') ((Tile.is_empty_iff _).mp h')
      exact ⟨congrArg Prod.fst h'', congrArg Prod.snd h''⟩
    exact hx
  have hadj1 : Puzzle.is_adjacent_to_empty
      { tiles := setTileAt (setTileAt p.tiles ⟨row, hr⟩ ⟨col, hc⟩
          (tileAt p.tiles ⟨er, her⟩ ⟨ec, hec⟩))
          ⟨er, her⟩ ⟨ec, hec⟩ (tileAt p.tiles ⟨row, hr⟩ ⟨col, hc⟩)
        moves := p.moves + 1 } er ec = true :=
    (is_adjacent_iff hfe1 er ec).mpr (by omega)
  obtain ⟨hrow2, hcol2, hmv2⟩ := move_tile_succeeds hfe1 hadj1 her hec
  refine ⟨_, hmv2, ?_, rfl⟩
  apply grid_ext
  intro i j
  have hAA : ((⟨row, hrow2⟩ : Fin 4), (⟨col, hcol2⟩ : Fin 4))
      = ((⟨row, hr⟩ : Fin 4), (⟨col, hc⟩ : Fin 4)) := rfl
  have hne2 : ((⟨er, her⟩ : Fin 4), (⟨ec, hec⟩ : Fin 4))
      ≠ ((⟨row, hrow2⟩ : Fin 4), (⟨col, hcol2⟩ : Fin 4)) := by
    rw [hAA]
    exact Ne.symm hne
  have h2 := tileAt_swap
    (setTileAt (setTileAt p.tiles ⟨row, hr⟩ ⟨col, hc⟩
        (tileAt p.tiles ⟨er, her⟩ ⟨ec, hec⟩))
      ⟨er, her⟩ ⟨ec, hec⟩ (tileAt p.tiles ⟨row, hr⟩ ⟨col, hc⟩))
    ((⟨er, her⟩ : Fin 4), (⟨ec, hec⟩ : Fin 4))
    ((⟨row, hrow2⟩ : Fin 4), (⟨col, hcol2⟩ : Fin 4)) (i, j) hne2
  have h1 := tileAt_swap p.tiles
    ((⟨row, hr⟩ : Fin 4), (⟨col, hc⟩ : Fin 4))
    ((⟨er, her⟩ : Fin 4), (⟨ec, hec⟩ : Fin 4))
    ((Equiv.swap ((⟨er, her⟩ : Fin 4), (⟨ec, hec⟩ : Fin 4))
      ((⟨row, hrow2⟩ : Fin 4), (⟨col, hcol2⟩ : Fin 4))) (i, j)) hne
  have hsw : (Equiv.swap ((⟨er, her⟩ : Fin 4), (⟨ec, hec⟩ : Fin 4))
      ((⟨row, hrow2⟩ : Fin 4), (⟨col, hcol2⟩ : Fin 4)))
      = Equiv.swap ((⟨row, hr⟩ : Fin 4), (⟨col, hc⟩ : Fin 4))
          ((⟨er, her⟩ : Fin 4), (⟨ec, hec⟩ : Fin 4)) := by
    rw [hAA, Equiv.swap_comm]
  refine (h2.trans (h1.trans ?_))
  rw [hsw, Equiv.swap_apply_self]

theorem C8_amended_witness :
    tileValues defaultPuzzle = canonicalValues ∧
      defaultPuzzle.find_empty = some (3, 3) ∧
      defaultPuzzle.move_tile 3 2 = some (puzzleAfter32, true) ∧
      ∃ p2, puzzleAfter32.move_tile 3 3 = some (p2, true) ∧
        p2.tiles = defaultPuzzle.tiles ∧ p2.moves = defaultPuzzle.moves + 2 :=
  ⟨by decide, by decide, by decide,
    C8_amended_roundtrip defaultPuzzle puzzleAfter32 3 3 3 2
      (by decide) (by decide) (by decide)⟩
